import Mathlib

/-!
Verification of the voice-input UI layer: the dictation dedup patch
(layout.tsx, handleInput), the speech-recognition hook
(useSpeechRecognition: result handler, error handler, startListening,
stopListening), and the toggle button (VoiceInputButton: delta-forwarding
effect, click handler, positioning fallback).

Strings are embedded as List Char; each JavaScript string operation used
by the source (slice on an index, includes, split-count, trim, toLowerCase)
is given an executable counterpart on lists.
-/

namespace VoiceInput

/-! ### JavaScript string primitives -/

/-- JS hay.includes(pat): pat occurs as a contiguous substring of hay. -/
def jsIncludes : (hay pat : List Char) → Bool
  | [], pat => pat.isEmpty
  | a :: t, pat => pat.isPrefixOf (a :: t) || jsIncludes t pat

/-- Number of non-overlapping occurrences of the nonempty separator
(p :: ps), scanned left to right, inside a list. -/
def occCount (p : Char) (ps : List Char) : List Char → Nat
  | [] => 0
  | a :: t =>
    if (p :: ps).isPrefixOf (a :: t) then occCount p ps (t.drop ps.length) + 1
    else occCount p ps t
termination_by l => l.length
decreasing_by
  · simp only [List.length_drop, List.length_cons]
    omega
  · simp only [List.length_cons]
    omega

/-- JS hay.split(pat).length: occurrences of the separator plus one for a
nonempty separator; one part per character for the empty separator. -/
def jsSplitLen (hay pat : List Char) : Nat :=
  match pat with
  | [] => hay.length
  | p :: ps => occCount p ps hay + 1

/-- JS s.trim() from the left: drop leading whitespace. -/
def ltrim (l : List Char) : List Char := l.dropWhile Char.isWhitespace

/-- JS s.trim() from the right: drop trailing whitespace. -/
def rtrim (l : List Char) : List Char := List.rdropWhile Char.isWhitespace l

/-- JS s.trim(): drop leading and trailing whitespace. -/
def jsTrim (l : List Char) : List Char := rtrim (ltrim l)

/-! ### Dictation dedup patch (layout.tsx, handleInput debounce body) -/

/-- Outcome of one firing of the debounced dedup check: the field value
after the handler ran, the updated lastInputValue, and whether the
corrective write (plus synthetic input event) was performed. -/
structure PatchResult where
  fieldValue : List Char
  lastInput : List Char
  corrected : Bool
deriving DecidableEq

/-- The duplicate test of handleInput: the new suffix repeated twice occurs
in the value, or the value splits on the new suffix into more than two
parts. -/
def dupCondition (lastInputValue finalValue : List Char) : Bool :=
  let newPart := finalValue.drop lastInputValue.length
  let duplicatePattern := newPart ++ newPart
  jsIncludes finalValue duplicatePattern ||
    (decide (0 < newPart.length) && decide (2 < jsSplitLen finalValue newPart))

/-- The debounce body of handleInput (layout.tsx): given the last known
committed value and the field's current value after the 50ms quiet period,
either performs the corrective write of lastInputValue ++ newPart, or
leaves the field alone; either way the new value becomes the remembered
lastInputValue. -/
def handleInputFire (lastInputValue finalValue : List Char) : PatchResult :=
  if !lastInputValue.isEmpty && decide (lastInputValue.length < finalValue.length) then
    if dupCondition lastInputValue finalValue then
      let cleanValue := lastInputValue ++ finalValue.drop lastInputValue.length
      ⟨cleanValue, cleanValue, true⟩
    else ⟨finalValue, finalValue, false⟩
  else ⟨finalValue, finalValue, false⟩

/-- C1: evaluating the dedup patch at the spec's own example. With last
committed value "Bonjour" and current value "BonjourBonjour" the duplicate
branch does fire, but the value written back is
lastInputValue ++ newPart = "BonjourBonjour" - identical to the duplicated
value and different from the "Bonjour" the spec (and the code's own
comment about removing duplicates) promises. -/
theorem handleInputFire_bonjour :
    (handleInputFire ("Bonjour".toList) ("BonjourBonjour".toList)).corrected = true ∧
    (handleInputFire ("Bonjour".toList) ("BonjourBonjour".toList)).fieldValue =
      "BonjourBonjour".toList ∧
    (handleInputFire ("Bonjour".toList) ("BonjourBonjour".toList)).fieldValue ≠
      "Bonjour".toList := by
  decide

/-- C8: whenever the duplicate branch fires (nonempty previous value p,
strictly longer current value v, duplicate condition true), the value
written back is p ++ (v with its first p.length characters dropped); it has
the same length as v, and if p is a prefix of v it equals v itself, so the
corrective write never removes text from the field. -/
theorem handleInputFire_preserves (p v : List Char) (hp : p ≠ [])
    (hlen : p.length < v.length) (hfire : dupCondition p v = true) :
    (handleInputFire p v).fieldValue = p ++ v.drop p.length ∧
    (handleInputFire p v).fieldValue.length = v.length ∧
    (p <+: v → (handleInputFire p v).fieldValue = v) := by
  have hcond : (!p.isEmpty && decide (p.length < v.length)) = true := by
    simp [List.isEmpty_iff, hp, hlen]
  refine ⟨?_, ?_, ?_⟩
  · simp [handleInputFire, hcond, hfire]
  · simp only [handleInputFire, hcond, if_true, hfire]
    simp only [List.length_append, List.length_drop]
    omega
  · intro hpre
    obtain ⟨t, rfl⟩ := hpre
    simp [handleInputFire, hcond, hfire, List.drop_left]
    split <;> rfl

/-- Witness for C8 at p = "a", v = "aa": the duplicate condition fires and
the written value is "aa" itself. -/
theorem handleInputFire_preserves_witness :
    (handleInputFire ['a'] ['a', 'a']).fieldValue = ['a'] ++ (['a', 'a'].drop (['a'] : List Char).length) ∧
    (handleInputFire ['a'] ['a', 'a']).fieldValue.length = (['a', 'a'] : List Char).length ∧
    ((['a'] : List Char) <+: ['a', 'a'] → (handleInputFire ['a'] ['a', 'a']).fieldValue = ['a', 'a']) :=
  handleInputFire_preserves ['a'] ['a', 'a'] (by decide) (by decide) (by decide)

/-! ### Recognition session state (useSpeechRecognition) -/

/-- The reactive state owned by the hook: listening flag, starting guard
flag, accumulated finalized transcript, optional error message, and whether
the recognition object was constructed (recognitionRef non-null). -/
structure SessionState where
  isListening : Bool
  isStarting : Bool
  transcript : List Char
  error : Option (List Char)
  hasRecognition : Bool
deriving DecidableEq

/-- The state right after a successful mount: recognition constructed,
nothing listening, empty transcript, no error. -/
def initialSession : SessionState := ⟨false, false, [], none, true⟩

/-- JS s.toLowerCase(), characterwise. -/
def toLowerList (l : List Char) : List Char := l.map Char.toLower

/-- The error event listener of useSpeechRecognition: lowercases the code,
silently resets on aborted-like, no-speech and audio-capture codes, and
surfaces every other code as a visible message. -/
def errorHandler (s : SessionState) (code : List Char) : SessionState :=
  if toLowerList code = "aborted".toList ||
      jsIncludes (toLowerList code) ("aborted".toList) then
    { s with isListening := false, isStarting := false, error := none }
  else if toLowerList code = "no-speech".toList ||
      toLowerList code = "audio-capture".toList then
    { s with isListening := false, isStarting := false, error := none }
  else
    { s with error := some ("Speech recognition error: ".toList ++ code),
             isListening := false, isStarting := false }

/-- The benign set as the spec states it: exactly the three listed codes. -/
def benignCode (code : List Char) : Bool :=
  code = "aborted".toList || code = "no-speech".toList || code = "audio-capture".toList

/-- The set of codes the code actually silences: lowercased code contains
"aborted", or equals "no-speech" or "audio-capture". -/
def silencedCode (code : List Char) : Bool :=
  (toLowerList code = "aborted".toList ||
    jsIncludes (toLowerList code) ("aborted".toList)) ||
  (toLowerList code = "no-speech".toList || toLowerList code = "audio-capture".toList)

/-- A list always includes its own suffix part: jsIncludes (a ++ b) b. -/
theorem jsIncludes_append_self (a b : List Char) : jsIncludes (a ++ b) b = true := by
  induction a with
  | nil =>
    cases b with
    | nil => rfl
    | cons x t =>
      simp [jsIncludes, List.isPrefixOf_iff_prefix]
  | cons x a ih =>
    simp [jsIncludes, ih]

/-- C3 counterexample: the code "user-aborted" is not one of the three
benign codes of the claim, yet the handler silences it (no visible error),
because the branch tests whether the lowercased code contains "aborted". -/
theorem errorHandler_benign_cex :
    benignCode ("user-aborted".toList) = false ∧
    (errorHandler initialSession ("user-aborted".toList)).error = none := by
  decide

/-- C3 (amended): codes whose lowercased form contains "aborted" or equals
"no-speech" or "audio-capture" never populate the visible error (it is
reset to none and the listening and starting flags cleared); every other
code always populates the visible error with a message containing that
code. -/
theorem errorHandler_policy (s : SessionState) (code : List Char) :
    (silencedCode code = true →
      (errorHandler s code).error = none ∧
      (errorHandler s code).isListening = false ∧
      (errorHandler s code).isStarting = false) ∧
    (silencedCode code = false →
      (errorHandler s code).error =
        some ("Speech recognition error: ".toList ++ code) ∧
      jsIncludes ("Speech recognition error: ".toList ++ code) code = true ∧
      (errorHandler s code).isListening = false ∧
      (errorHandler s code).isStarting = false) := by
  by_cases h1 : (toLowerList code = "aborted".toList ||
      jsIncludes (toLowerList code) ("aborted".toList)) = true
  · have he : errorHandler s code =
        { s with isListening := false, isStarting := false, error := none } := by
      unfold errorHandler
      rw [if_pos h1]
    refine ⟨fun _ => ?_, fun hs => ?_⟩
    · rw [he]
      exact ⟨rfl, rfl, rfl⟩
    · unfold silencedCode at hs
      rw [h1] at hs
      simp at hs
  · by_cases h2 : (toLowerList code = "no-speech".toList ||
        toLowerList code = "audio-capture".toList) = true
    · have he : errorHandler s code =
          { s with isListening := false, isStarting := false, error := none } := by
        unfold errorHandler
        rw [if_neg h1, if_pos h2]
      refine ⟨fun _ => ?_, fun hs => ?_⟩
      · rw [he]
        exact ⟨rfl, rfl, rfl⟩
      · unfold silencedCode at hs
        rw [h2] at hs
        simp at hs
    · have he : errorHandler s code =
          { s with error := some ("Speech recognition error: ".toList ++ code),
                   isListening := false, isStarting := false } := by
        unfold errorHandler
        rw [if_neg h1, if_neg h2]
      refine ⟨fun hs => ?_, fun _ => ?_⟩
      · rw [Bool.not_eq_true] at h1 h2
        unfold silencedCode at hs
        rw [h1, h2] at hs
        simp at hs
      · rw [he]
        exact ⟨rfl, jsIncludes_append_self _ _, rfl, rfl⟩
/-- Witness for C3 (amended), silenced side, at the code "no-speech". -/
theorem errorHandler_policy_witness :
    (errorHandler initialSession ("no-speech".toList)).error = none ∧
    (errorHandler initialSession ("no-speech".toList)).isListening = false ∧
    (errorHandler initialSession ("no-speech".toList)).isStarting = false :=
  (errorHandler_policy initialSession ("no-speech".toList)).1 (by decide)

/-! ### startListening and stopListening -/

/-- A call into the native recognition object. -/
inductive NativeCall
  | start
  | stop
deriving DecidableEq

/-- What the synchronous part of startListening produced: the state after
the call, the native calls it made, and whether the 50ms settling timeout
(whose body resets the transcript and calls native start) was scheduled. -/
structure StartResult where
  state : SessionState
  calls : List NativeCall
  timeoutScheduled : Bool
deriving DecidableEq

/-- The synchronous part of startListening: bail out with an error when no
recognition object exists; return untouched when a start is in progress or
the session is listening; otherwise stop any existing recognition and
schedule the settling timeout. -/
def startListeningSync (s : SessionState) : StartResult :=
  if s.hasRecognition = false then
    ⟨{ s with error := some ("Speech recognition not available".toList) }, [], false⟩
  else if s.isStarting || s.isListening then ⟨s, [], false⟩
  else ⟨s, [NativeCall.stop], true⟩

/-- C6: with a recognition object present, calling startListening while the
starting guard is set or the session is listening returns with the whole
session state unchanged, performs no native call (in particular no start),
and does not even schedule the settling timeout. -/
theorem startListening_reentrant (s : SessionState)
    (havail : s.hasRecognition = true)
    (h : s.isStarting = true ∨ s.isListening = true) :
    startListeningSync s = ⟨s, [], false⟩ := by
  unfold startListeningSync
  rcases h with h | h <;> simp [havail, h]

/-- Witness for C6 at a listening session with empty transcript. -/
theorem startListening_reentrant_witness :
    startListeningSync ⟨true, false, [], none, true⟩ =
      ⟨⟨true, false, [], none, true⟩, [], false⟩ :=
  startListening_reentrant ⟨true, false, [], none, true⟩ rfl (Or.inr rfl)

/-- stopListening: stop the native recognition when present, clear the
listening flag and the starting guard; transcript and error untouched. -/
def stopListening (s : SessionState) : SessionState × List NativeCall :=
  if s.hasRecognition then
    ({ s with isListening := false, isStarting := false }, [NativeCall.stop])
  else ({ s with isListening := false, isStarting := false }, [])

/-- C10: every call to stopListening leaves the transcript and the error
message unchanged and clears exactly the listening flag and the starting
guard flag. -/
theorem stopListening_frame (s : SessionState) :
    (stopListening s).1.transcript = s.transcript ∧
    (stopListening s).1.error = s.error ∧
    (stopListening s).1.isListening = false ∧
    (stopListening s).1.isStarting = false := by
  unfold stopListening
  split <;> simp

/-! ### Whitespace-trim lemmas -/

/-- If dropWhile keeps a cons untouched, the predicate fails on the head. -/
theorem dropWhile_cons_eq_self (p : Char → Bool) (c : Char) (r : List Char)
    (h : (c :: r).dropWhile p = c :: r) : p c = false := by
  by_contra hc
  rw [Bool.not_eq_false] at hc
  rw [List.dropWhile_cons, if_pos hc] at h
  have hle : (r.dropWhile p).length ≤ r.length := (List.dropWhile_suffix p).length_le
  have hlen := congrArg List.length h
  simp only [List.length_cons] at hlen
  omega

/-- Dropping leading whitespace ignores anything after a nonempty block that
already starts with non-whitespace. -/
theorem ws_dropWhile_append (f l : List Char) (hf : f ≠ [])
    (hfix : f.dropWhile Char.isWhitespace = f) :
    (f ++ l).dropWhile Char.isWhitespace = f ++ l := by
  cases f with
  | nil => exact absurd rfl hf
  | cons c r =>
    have hc : c.isWhitespace = false := dropWhile_cons_eq_self _ c r hfix
    rw [List.cons_append, List.dropWhile_cons, if_neg (by simp [hc])]

/-- ltrim ignores anything after a nonempty already-left-trimmed block. -/
theorem ltrim_append_of_head (f l : List Char) (hf : f ≠ [])
    (hfix : ltrim f = f) : ltrim (f ++ l) = f ++ l := by
  unfold ltrim
  exact ws_dropWhile_append f l hf hfix

/-- ltrim swallows a leading whitespace character. -/
theorem ltrim_cons_ws (c : Char) (l : List Char) (hc : c.isWhitespace = true) :
    ltrim (c :: l) = ltrim l := by
  unfold ltrim
  rw [List.dropWhile_cons, if_pos hc]

/-- rtrim swallows a trailing whitespace character. -/
theorem rtrim_append_ws (l : List Char) (c : Char) (hc : c.isWhitespace = true) :
    rtrim (l ++ [c]) = rtrim l := by
  unfold rtrim
  exact List.rdropWhile_concat_pos _ _ _ hc

/-- rtrim ignores anything before a nonempty already-right-trimmed block. -/
theorem rtrim_append_right (l f : List Char) (hf : f ≠ [])
    (hfix : rtrim f = f) : rtrim (l ++ f) = l ++ f := by
  have hrev : f.reverse.dropWhile Char.isWhitespace = f.reverse := by
    have h := congrArg List.reverse hfix
    unfold rtrim List.rdropWhile at h
    rwa [List.reverse_reverse] at h
  have hfrev : f.reverse ≠ [] := by
    intro h
    apply hf
    simpa using congrArg List.reverse h
  unfold rtrim List.rdropWhile
  rw [List.reverse_append, ws_dropWhile_append f.reverse l.reverse hfrev hrev,
    ← List.reverse_append, List.reverse_reverse]

/-- A jsTrim fixed point is both an ltrim and an rtrim fixed point. -/
theorem jsTrim_fix_parts (f : List Char) (h : jsTrim f = f) :
    ltrim f = f ∧ rtrim f = f := by
  have h1 : (ltrim f).length ≤ f.length := (List.dropWhile_suffix _).length_le
  have h2 : (jsTrim f).length ≤ (ltrim f).length :=
    List.IsPrefix.length_le (List.rdropWhile_prefix _ _)
  rw [h] at h2
  have hl : ltrim f = f :=
    List.IsSuffix.eq_of_length (List.dropWhile_suffix _) (by omega)
  refine ⟨hl, ?_⟩
  have h3 := h
  unfold jsTrim at h3
  rwa [hl] at h3

/-- A nonempty trimmed string contains a non-whitespace character. -/
theorem jsTrim_has_non_ws (l : List Char) (h : jsTrim l ≠ []) :
    ∃ c ∈ jsTrim l, c.isWhitespace = false := by
  have h' : (ltrim l).reverse.dropWhile Char.isWhitespace ≠ [] := by
    intro e
    apply h
    show rtrim (ltrim l) = []
    unfold rtrim List.rdropWhile
    rw [e, List.reverse_nil]
  refine ⟨((ltrim l).reverse.dropWhile Char.isWhitespace).head h', ?_, ?_⟩
  · show _ ∈ rtrim (ltrim l)
    unfold rtrim List.rdropWhile
    rw [List.mem_reverse]
    exact List.head_mem h'
  · exact List.head_dropWhile_not Char.isWhitespace (ltrim l).reverse h'

/-! ### Result handler and delta-forwarding effect -/

/-- The finalTranscript accumulator of the result listener: finalized
fragments each followed by a single space, interim ones skipped. -/
def finalConcat (results : List (Bool × List Char)) : List Char :=
  results.foldl (fun acc r => if r.1 then acc ++ r.2 ++ [' '] else acc) []

/-- Whether the event carried at least one finalized result. -/
def hasFinal (results : List (Bool × List Char)) : Bool :=
  results.any (fun r => r.1)

/-- The result listener of useSpeechRecognition: when the event carries
finalized text whose trim is nonempty, the transcript becomes
(prev ++ " " ++ finalTranscript).trim(); otherwise it is unchanged. -/
def resultHandler (prev : List Char) (results : List (Bool × List Char)) :
    List Char :=
  if hasFinal results && !(jsTrim (finalConcat results)).isEmpty then
    jsTrim (prev ++ ' ' :: finalConcat results)
  else prev

/-- The delta-forwarding effect of VoiceInputButton: on a changed nonempty
transcript, the trimmed new suffix is forwarded when nonempty (updating the
last-forwarded marker); otherwise nothing is sent and the marker stays. -/
def transcriptEffect (lastTranscript transcript : List Char) :
    Option (List Char) × List Char :=
  if transcript ≠ [] ∧ transcript ≠ lastTranscript then
    if jsTrim (transcript.drop lastTranscript.length) ≠ [] then
      (some (jsTrim (transcript.drop lastTranscript.length)), transcript)
    else (none, lastTranscript)
  else (none, lastTranscript)

/-- C9: whenever the update callback is invoked, the forwarded delta is the
trimmed new suffix of the transcript, is nonempty, and contains a
non-whitespace character (so it is never whitespace-only); and when the
trimmed new suffix is empty, nothing is forwarded and the last-forwarded
marker is left unchanged. -/
theorem forwarded_delta_form (lastT t d : List Char) :
    ((transcriptEffect lastT t).1 = some d →
      d = jsTrim (t.drop lastT.length) ∧ d ≠ [] ∧
      ∃ c ∈ d, c.isWhitespace = false) ∧
    (jsTrim (t.drop lastT.length) = [] →
      (transcriptEffect lastT t).1 = none ∧
      (transcriptEffect lastT t).2 = lastT) := by
  constructor
  · intro h
    unfold transcriptEffect at h
    by_cases h1 : t ≠ [] ∧ t ≠ lastT
    · rw [if_pos h1] at h
      by_cases h2 : jsTrim (t.drop lastT.length) ≠ []
      · rw [if_pos h2] at h
        have h3 : jsTrim (t.drop lastT.length) = d := by simpa using h
        exact ⟨h3.symm, h3 ▸ h2, h3 ▸ jsTrim_has_non_ws _ h2⟩
      · rw [if_neg h2] at h
        simp at h
    · rw [if_neg h1] at h
      simp at h
  · intro h
    unfold transcriptEffect
    by_cases h1 : t ≠ [] ∧ t ≠ lastT
    · rw [if_pos h1, if_neg (by simp [h])]
      exact ⟨rfl, rfl⟩
    · rw [if_neg h1]
      exact ⟨rfl, rfl⟩

/-- Witness for C9 at an empty marker and the transcript "hi". -/
theorem forwarded_delta_form_witness :
    "hi".toList = jsTrim (("hi".toList).drop (List.length ([] : List Char))) ∧
    "hi".toList ≠ [] ∧ ∃ c ∈ "hi".toList, c.isWhitespace = false :=
  (forwarded_delta_form [] ("hi".toList) ("hi".toList)).1 (by decide)

/-! ### Composed run: result events followed by the forwarding effect -/

/-- The composed state of hook and button: current transcript, the
last-forwarded marker, and everything passed to the update callback so
far, oldest first. -/
structure RunState where
  transcript : List Char
  lastSent : List Char
  outputs : List (List Char)
deriving DecidableEq

/-- Mount state: empty transcript, empty marker, nothing forwarded. -/
def initRunState : RunState := ⟨[], [], []⟩

/-- One finalized fragment arriving: the result listener updates the
transcript, then the delta-forwarding effect runs on the new transcript. -/
def processFragment (st : RunState) (f : List Char) : RunState :=
  ⟨resultHandler st.transcript [(true, f)],
   (transcriptEffect st.lastSent (resultHandler st.transcript [(true, f)])).2,
   st.outputs ++
     (transcriptEffect st.lastSent (resultHandler st.transcript [(true, f)])).1.toList⟩

/-- A whole dictation session: finalized fragments F1..Fn delivered in
order, starting from the mount state. -/
def runFragments (fs : List (List Char)) : RunState :=
  fs.foldl processFragment initRunState

/-- The transcript produced by appending one finalized fragment: the
fragment itself on an empty transcript, otherwise separated by one space. -/
def appendFragment (t f : List Char) : List Char :=
  if t = [] then f else t ++ ' ' :: f

/-- One step of the composed run on a trimmed state and a trimmed nonempty
fragment: the fragment itself is forwarded, the transcript and marker both
become appendFragment t f, and that value is again trimmed. -/
theorem processFragment_step (t : List Char) (acc : List (List Char))
    (f : List Char) (ht : jsTrim t = t) (hf : jsTrim f = f) (hfne : f ≠ []) :
    processFragment ⟨t, t, acc⟩ f =
      ⟨appendFragment t f, appendFragment t f, acc ++ [f]⟩ ∧
    jsTrim (appendFragment t f) = appendFragment t f := by
  obtain ⟨hlf, hrf⟩ := jsTrim_fix_parts f hf
  obtain ⟨hlt, hrt⟩ := jsTrim_fix_parts t ht
  have htrimf : jsTrim (f ++ [' ']) = f := by
    unfold jsTrim
    rw [ltrim_append_of_head f [' '] hfne hlf, rtrim_append_ws f ' ' (by decide), hrf]
  have hcondmain : (hasFinal [(true, f)] &&
      !(jsTrim (finalConcat [(true, f)])).isEmpty) = true := by
    have hfc : finalConcat [(true, f)] = f ++ [' '] := rfl
    rw [hfc, htrimf]
    cases f with
    | nil => exact absurd rfl hfne
    | cons c r => rfl
  have ht' : resultHandler t [(true, f)] = jsTrim (t ++ ' ' :: (f ++ [' '])) := by
    unfold resultHandler
    rw [if_pos hcondmain]
    rfl
  by_cases htne : t = []
  · subst htne
    have happ : appendFragment [] f = f := by
      unfold appendFragment
      rw [if_pos rfl]
    have htv : resultHandler [] [(true, f)] = f := by
      rw [ht']
      show jsTrim (' ' :: (f ++ [' '])) = f
      unfold jsTrim
      rw [ltrim_cons_ws ' ' (f ++ [' ']) (by decide)]
      exact htrimf
    have heff : transcriptEffect [] f = (some f, f) := by
      unfold transcriptEffect
      have hnp : jsTrim (f.drop (List.length ([] : List Char))) ≠ [] := by
        simpa [hf] using hfne
      rw [if_pos ⟨hfne, hfne⟩, if_pos hnp]
      simp [hf]
    rw [happ]
    refine ⟨?_, hf⟩
    simp only [processFragment]
    rw [htv, heff]
    rfl
  · have happ : appendFragment t f = t ++ ' ' :: f := by
      unfold appendFragment
      rw [if_neg htne]
    have hassoc1 : t ++ ' ' :: (f ++ [' ']) = (t ++ ' ' :: f) ++ [' '] := by simp
    have hrt' : rtrim (t ++ ' ' :: f) = t ++ ' ' :: f := by
      have hassoc2 : t ++ ' ' :: f = (t ++ [' ']) ++ f := by simp
      rw [hassoc2]
      exact rtrim_append_right (t ++ [' ']) f hfne hrf
    have hlt' : ltrim (t ++ ' ' :: f) = t ++ ' ' :: f :=
      ltrim_append_of_head t (' ' :: f) htne hlt
    have htv : resultHandler t [(true, f)] = t ++ ' ' :: f := by
      rw [ht']
      unfold jsTrim
      rw [ltrim_append_of_head t (' ' :: (f ++ [' '])) htne hlt, hassoc1,
        rtrim_append_ws (t ++ ' ' :: f) ' ' (by decide), hrt']
    have htne2 : t ++ ' ' :: f ≠ t := by
      intro h
      have hlen := congrArg List.length h
      simp at hlen
    have htnenil : t ++ ' ' :: f ≠ [] := by simp
    have hjt : jsTrim ((t ++ ' ' :: f).drop t.length) = f := by
      rw [List.drop_left t (' ' :: f)]
      unfold jsTrim
      rw [ltrim_cons_ws ' ' f (by decide), hlf, hrf]
    have heff : transcriptEffect t (t ++ ' ' :: f) = (some f, t ++ ' ' :: f) := by
      unfold transcriptEffect
      rw [if_pos ⟨htnenil, htne2⟩, if_pos (show _ ≠ [] by rw [hjt]; exact hfne), hjt]
    rw [happ]
    constructor
    · simp only [processFragment]
      rw [htv, heff]
      rfl
    · unfold jsTrim
      rw [hlt', hrt']

/-- Folding trimmed nonempty fragments from any trimmed state forwards
exactly those fragments, in order. -/
theorem runFragments_aux (fs : List (List Char)) :
    ∀ (t : List Char) (acc : List (List Char)),
      jsTrim t = t →
      (∀ f ∈ fs, jsTrim f = f ∧ f ≠ []) →
      ∃ T, fs.foldl processFragment ⟨t, t, acc⟩ = ⟨T, T, acc ++ fs⟩ ∧
        jsTrim T = T := by
  induction fs with
  | nil =>
    intro t acc ht _
    exact ⟨t, by simp, ht⟩
  | cons f fs ih =>
    intro t acc ht hfs
    obtain ⟨hf, hfne⟩ := hfs f (List.mem_cons_self f fs)
    have hstep := processFragment_step t acc f ht hf hfne
    rw [List.foldl_cons, hstep.1]
    obtain ⟨T, hT, hTfix⟩ := ih (appendFragment t f) (acc ++ [f]) hstep.2
      (fun g hg => hfs g (List.mem_cons_of_mem f hg))
    refine ⟨T, ?_, hTfix⟩
    rw [hT]
    simp

/-- C2 counterexample: the single finalized fragment " a" (with its leading
space, as real recognition results carry) is forwarded as its trim "a", so
the concatenation of forwarded deltas differs from the concatenation of the
fragments. -/
theorem runFragments_concat_cex :
    ¬ ((runFragments [[' ', 'a']]).outputs.flatten = [[' ', 'a']].flatten) := by
  decide

/-- C2 (amended): for fragments that are nonempty and carry no leading or
trailing whitespace (each equals its own trim), the deltas passed to the
update callback are exactly the fragments F1..Fn in order; in particular
their concatenation is the concatenation of F1..Fn, nothing is delivered
twice and nothing is skipped. -/
theorem runFragments_exact (fs : List (List Char))
    (h : ∀ f ∈ fs, jsTrim f = f ∧ f ≠ []) :
    (runFragments fs).outputs = fs ∧
    (runFragments fs).outputs.flatten = fs.flatten := by
  obtain ⟨T, hT, _⟩ := runFragments_aux fs [] [] rfl h
  unfold runFragments initRunState
  rw [hT]
  simp

/-- Witness for C2 (amended) at the two fragments "hello" and "world". -/
theorem runFragments_exact_witness :
    (runFragments ["hello".toList, "world".toList]).outputs =
      ["hello".toList, "world".toList] ∧
    (runFragments ["hello".toList, "world".toList]).outputs.flatten =
      ["hello".toList, "world".toList].flatten :=
  runFragments_exact ["hello".toList, "world".toList] (by decide)

/-! ### Toggle button: click handler, capability gate, positioning -/

/-- The button's state: the hook's session plus the last-forwarded
transcript marker (lastTranscriptRef). -/
structure ButtonState where
  session : SessionState
  lastTranscript : List Char
deriving DecidableEq

/-- handleClick of VoiceInputButton: when listening, stop and clear the
marker; otherwise clear the marker and start. -/
def handleClick (b : ButtonState) : ButtonState :=
  if b.session.isListening then
    { session := (stopListening b.session).1, lastTranscript := [] }
  else
    { session := (startListeningSync b.session).state, lastTranscript := [] }

/-- C4: every click, on a listening session as well as on a stopped one,
resets the forwarded-delta marker to the empty string; consequently the
forwarding effect afterwards behaves exactly as with an empty marker, so
text forwarded before the toggle is never re-sent by a delta computed
against the old marker. -/
theorem handleClick_resets_marker (b : ButtonState) :
    (handleClick b).lastTranscript = [] ∧
    ∀ t : List Char,
      transcriptEffect (handleClick b).lastTranscript t = transcriptEffect [] t := by
  have h : (handleClick b).lastTranscript = [] := by
    unfold handleClick
    split <;> rfl
  exact ⟨h, fun t => by rw [h]⟩

/-- What the capability-gated component renders. -/
inductive Render
  | absent
  | button (isListening : Bool) (error : Option (List Char))
deriving DecidableEq

/-- The early return of VoiceInputButton: with a negative capability probe
the component renders nothing; otherwise the interactive button. -/
def renderVoiceButton (isSupported isListening : Bool)
    (error : Option (List Char)) : Render :=
  if !isSupported then Render.absent else Render.button isListening error

/-- One event step of the mounted component: the result listener is only
attached when the capability probe found a recognition constructor. -/
def componentStep (isSupported : Bool) (st : RunState) (f : List Char) :
    RunState :=
  if isSupported then processFragment st f else st

/-- C5: with a negative capability probe the component renders no control
at all, and under every sequence of subsequent events the run state never
changes, so the update callback is never invoked. -/
theorem unsupported_inert (isListening : Bool) (error : Option (List Char))
    (fs : List (List Char)) :
    renderVoiceButton false isListening error = Render.absent ∧
    fs.foldl (componentStep false) initRunState = initRunState ∧
    (fs.foldl (componentStep false) initRunState).outputs = [] := by
  have h : ∀ st : RunState, fs.foldl (componentStep false) st = st := by
    intro st
    induction fs generalizing st with
    | nil => rfl
    | cons f fs ih =>
      rw [List.foldl_cons]
      exact ih st
  exact ⟨rfl, h initRunState, by rw [h initRunState]; rfl⟩

/-- A computed or fallback CSS offset pair for the button. -/
structure PositionStyle where
  rightPx : String
  bottomPx : String
deriving DecidableEq

/-- The positionStyle expression of VoiceInputButton: the computed offset
when wrapper resolution has succeeded, else the fixed fallback of right
210px and bottom 32px. -/
def positionStyle (buttonPosition : Option (Int × Int)) : PositionStyle :=
  match buttonPosition with
  | some p => ⟨toString p.1 ++ "px", toString p.2 ++ "px"⟩
  | none => ⟨"210px", "32px"⟩

/-- C7: while no wrapper resolution has succeeded the button is placed at
the fixed default offset right 210px, bottom 32px; once a position was
computed, that computed offset is used instead. -/
theorem positionStyle_fallback :
    positionStyle none = ⟨"210px", "32px"⟩ ∧
    ∀ r b : Int,
      positionStyle (some (r, b)) = ⟨toString r ++ "px", toString b ++ "px"⟩ :=
  ⟨rfl, fun _ _ => rfl⟩

end VoiceInput
